import Mathlib

/-!
Verification of the asynchronous job-lifecycle subsystem of the legal-document
analysis service (`ServerSide/job_manager.py` and `ServerSide/api.py`).

The job store is modelled as an association list from job ids to job records,
mirroring the insertion-ordered Python dict `JobManager.jobs`.  Timestamps are
modelled as integers (seconds); `datetime.now()` becomes an explicit `now`
parameter.  Python's float arithmetic in `update_job_progress`
(`int((processed / total) * 100)`) is modelled exactly as IEEE-754 binary64
round-to-nearest-even arithmetic over `ℚ` (normal range; overflow and
subnormal clamping do not arise for the values these operations produce).
-/

namespace LegalJobs

/-! ### Binary64 arithmetic model

The fractions appearing in `update_job_progress` are nonnegative, so a
binary64 value is represented as a mantissa/exponent pair `(m, e) : ℕ × ℤ`
denoting `m · 2^e`.  Rounding a positive rational `a / b` to 53 significant
bits is performed exactly, on natural numbers.  The exponent range is
unbounded (no overflow or subnormal clamping), which is faithful for the
normal-range values produced by the progress computation. -/

/-- Fuel-driven base-2 logarithm on naturals (structural recursion, so that
kernel evaluation works); `natLog2 n` is the floor of `log₂ n` for `n ≥ 1`. -/
def natLog2Aux : ℕ → ℕ → ℕ
  | 0, _ => 0
  | fuel + 1, n => if 2 ≤ n then natLog2Aux fuel (n / 2) + 1 else 0

/-- Floor of the base-2 logarithm of a natural number (0 for inputs ≤ 1). -/
def natLog2 (n : ℕ) : ℕ := natLog2Aux n n

/-- Floor of the base-2 logarithm of the positive rational `a / b`. -/
def ilog2 (a b : ℕ) : ℤ :=
  if b ≤ a then (natLog2 (a / b) : ℤ)
  else
    let f := natLog2 (b / a)
    if b = a * 2 ^ f then -(f : ℤ) else -(f : ℤ) - 1

/-- Round the fraction `num / den` (with `den > 0`) to the nearest integer,
ties to even: the IEEE-754 default rounding applied to an integer target. -/
def roundNEFrac (num den : ℕ) : ℕ :=
  let n := num / den
  let r := num % den
  if 2 * r < den then n
  else if den < 2 * r then n + 1
  else if n % 2 = 0 then n else n + 1

/-- Correctly round the positive rational `a / b` to binary64
(53-bit significand, round to nearest, ties to even), returning the value
as a mantissa/exponent pair `(m, e)` with value `m · 2^e`. -/
def fround (a b : ℕ) : ℕ × ℤ :=
  let e : ℤ := ilog2 a b - 52
  let num := a * 2 ^ (-e).toNat
  let den := b * 2 ^ e.toNat
  (roundNEFrac num den, e)

/-- Floor of the value `m · 2^e` (the effect of Python's `int()` on a
nonnegative float). -/
def floorVal (m : ℕ) (e : ℤ) : ℤ :=
  if 0 ≤ e then ((m * 2 ^ e.toNat : ℕ) : ℤ) else ((m / 2 ^ (-e).toNat : ℕ) : ℤ)

/-- Model of the Python expression `int((processed / total) * 100)`:
correctly-rounded binary64 division of exactly-converted integers, exact
multiplication by `100` followed by a correct rounding, truncation toward
zero (the value is nonnegative, so truncation is the floor). -/
def pyPercent (processed total : ℕ) : ℤ :=
  if processed = 0 ∨ total = 0 then 0
  else
    let d1 := fround processed total
    let d2 := fround (100 * d1.1 * 2 ^ d1.2.toNat) (2 ^ (-d1.2).toNat)
    floorVal d2.1 d2.2

/-! ### Data model (`job_manager.py`) -/

/-- Job states, `JobStatus` in `job_manager.py`. -/
inductive JobStatus where
  | pending
  | processing
  | completed
  | failed
deriving DecidableEq, Repr

/-- True on the two terminal states (`COMPLETED`, `FAILED`). -/
def JobStatus.isTerminal : JobStatus → Bool
  | .completed => true
  | .failed => true
  | _ => false

/-- One job record, the dict created by `JobManager.create_job`.  The opaque
result payload is abstracted to the list of successfully processed unit
indices (the data everything in the record's `result` dict derives from). -/
structure Job where
  job_type : String
  status : JobStatus
  created_at : ℤ
  started_at : Option ℤ
  completed_at : Option ℤ
  result : Option (List ℕ)
  error : Option String
  progress : ℤ
  total_files : ℕ
  processed_files : ℕ
deriving DecidableEq, Repr

/-- The job store `JobManager.jobs`: an insertion-ordered association list,
modelling the Python dict. -/
abbrev Store := List (String × Job)

/-- `JobManager.max_jobs`. -/
def max_jobs : ℕ := 100

/-- `JobManager.job_timeout` (seconds). -/
def job_timeout : ℤ := 300

/-- Look up a job id in the store. -/
def Store.find (s : Store) (jid : String) : Option Job :=
  List.lookup jid s

/-- Python dict assignment `self.jobs[job_id] = ...`: replace in place when
the key exists, otherwise append (dicts preserve insertion order). -/
def Store.insert (s : Store) (jid : String) (j : Job) : Store :=
  if (s.find jid).isSome then
    s.map fun p => if p.1 = jid then (p.1, j) else p
  else
    s ++ [(jid, j)]

/-- Apply a field update to the record stored under `jid` (mutation of
`self.jobs[job_id]`), leaving every other record untouched. -/
def Store.modify (s : Store) (jid : String) (f : Job → Job) : Store :=
  s.map fun p => if p.1 = jid then (p.1, f p.2) else p

/-- Python's `"started_at" not in self.jobs[job_id]` is a dict-key membership
test.  `create_job` always inserts the key `"started_at"` (with value `None`)
and no operation ever deletes a key, so the key is present in every record
this module stores: the membership test is true, and its negation false, on
every reachable record.  We record that fact as a constant. -/
def startedAtKeyPresent (_j : Job) : Bool := true

/-! ### Store operations (`JobManager`) -/

/-- Record contents built by `JobManager.create_job`. -/
def newJob (job_type : String) (now : ℤ) : Job :=
  { job_type := job_type
    status := .pending
    created_at := now
    started_at := none
    completed_at := none
    result := none
    error := none
    progress := 0
    total_files := 0
    processed_files := 0 }

/-- Terminal jobs of the store, keyed for sorting:
the list comprehension inside `_cleanup_old_jobs`. -/
def terminalEntries (s : Store) : List (String × Job) :=
  s.filter fun p => p.2.status.isTerminal

/-- The terminal entries sorted by `created_at` ascending (Python's stable
`sorted(..., key=lambda x: x[1])`; ISO-8601 strings compare chronologically,
modelled by integer timestamps). -/
def sortedTerminal (s : Store) : List (String × Job) :=
  (terminalEntries s).mergeSort fun a b => a.2.created_at ≤ b.2.created_at

/-- Ids deleted by `_cleanup_old_jobs`: the first `len(sorted_jobs) // 5`
entries of the sorted terminal list. -/
def evictIds (s : Store) : List String :=
  ((sortedTerminal s).take ((sortedTerminal s).length / 5)).map Prod.fst

/-- `JobManager._cleanup_old_jobs`: delete the oldest 20% (rounded down) of
the terminal jobs. -/
def cleanup_old_jobs (s : Store) : Store :=
  s.filter fun p => ¬ p.1 ∈ evictIds s

/-- `JobManager.create_job`: evict if at capacity, then insert a fresh
Pending record.  The generated uuid becomes the explicit parameter `jid`. -/
def create_job (s : Store) (jid : String) (job_type : String) (now : ℤ) : Store :=
  let s := if max_jobs ≤ s.length then cleanup_old_jobs s else s
  s.insert jid (newJob job_type now)

/-- Field mutations performed by `JobManager.update_job_status` on the
record: set `status`; then the `if`/`elif` on `started_at`/`completed_at`;
then apply the keyword arguments (`result`, `error` are the only keywords
any caller passes). -/
def applyStatusUpdate (st : JobStatus) (now : ℤ) (result? : Option (List ℕ))
    (error? : Option String) (j : Job) : Job :=
  let j := { j with status := st }
  let j :=
    if st = .processing ∧ ¬ startedAtKeyPresent j then
      { j with started_at := some now }
    else if st = .completed ∨ st = .failed then
      { j with completed_at := some now }
    else j
  let j := match result? with
    | some r => { j with result := some r }
    | none => j
  match error? with
  | some e => { j with error := some e }
  | none => j

/-- `JobManager.update_job_status`. -/
def update_job_status (s : Store) (jid : String) (st : JobStatus) (now : ℤ)
    (result? : Option (List ℕ)) (error? : Option String) : Store :=
  if (s.find jid).isSome then
    s.modify jid (applyStatusUpdate st now result? error?)
  else s

/-- `JobManager.update_job_progress`. -/
def update_job_progress (s : Store) (jid : String) (processed total : ℕ) : Store :=
  if (s.find jid).isSome then
    s.modify jid fun j =>
      { j with
        processed_files := processed
        total_files := total
        progress := if 0 < total then pyPercent processed total else 0 }
  else s

/-- `JobManager.set_job_result`. -/
def set_job_result (s : Store) (jid : String) (now : ℤ) (r : List ℕ) : Store :=
  update_job_status s jid .completed now (some r) none

/-- `JobManager.set_job_error`. -/
def set_job_error (s : Store) (jid : String) (now : ℤ) (e : String) : Store :=
  update_job_status s jid .failed now none (some e)

/-- Message written by the timeout branch of `get_job`. -/
def timeoutMessage : String := "Job timed out after 5 minutes"

/-- `JobManager.get_job`: look up, and if the job is Processing with a
`started_at` further than `job_timeout` in the past, fail it via
`set_job_error` (plus the redundant direct `job["status"] = FAILED`
assignment) before returning.  The returned record is the stored dict
itself (aliasing), so the function returns the post-mutation record. -/
def get_job (s : Store) (jid : String) (now : ℤ) : Option Job × Store :=
  match s.find jid with
  | none => (none, s)
  | some j =>
    if j.status = .processing then
      match j.started_at with
      | some t0 =>
        if job_timeout < now - t0 then
          let s := set_job_error s jid now timeoutMessage
          let s := s.modify jid fun j => { j with status := .failed }
          (s.find jid, s)
        else (some j, s)
      | none => (some j, s)
    else (some j, s)

/-! ### API layer (`api.py`) -/

/-- Response of `GET /job-status/{job_id}` (`get_job_status` in `api.py`),
projected to the fields the lifecycle subsystem owns: one constructor per
branch of the handler. -/
inductive StatusResponse where
  | notFound
  | inProgress (status : JobStatus) (progress : ℤ) (processed_files total_files : ℕ)
      (created_at : ℤ) (started_at : Option ℤ)
  | done (progress : ℤ) (created_at : ℤ) (started_at completed_at : Option ℤ)
      (result : Option (List ℕ))
  | failedResp (created_at : ℤ) (completed_at : Option ℤ) (error : Option String)
deriving DecidableEq, Repr

/-- `get_job_status` in `api.py`: read through `JobManager.get_job` (which
may apply the timeout transition), then project.  The Completed branch
reports the literal `100` as `progress`, not the stored counter. -/
def get_job_status (s : Store) (jid : String) (now : ℤ) : StatusResponse × Store :=
  match get_job s jid now with
  | (none, s') => (.notFound, s')
  | (some job, s') =>
    if job.status = .pending ∨ job.status = .processing then
      (.inProgress job.status job.progress job.processed_files job.total_files
        job.created_at job.started_at, s')
    else if job.status = .completed then
      (.done 100 job.created_at job.started_at job.completed_at job.result, s')
    else
      (.failedResp job.created_at job.completed_at job.error, s')

/-- Outcome of processing one work unit (one uploaded file) inside the
per-unit `try` of `process_legal_documents_background`: the extraction and
AI-analysis collaborators either yield findings (`ok`), raise an exception
caught by the per-unit handler (`exn`), or return insufficient text, upon
which the unit is skipped (`short`). -/
inductive UnitOutcome where
  | ok
  | exn
  | short
deriving DecidableEq, Repr

/-- Externally observable events of one driver run, in order: progress
writes, the terminal commit, and release of the job's temp directory. -/
inductive DriverEvent where
  | progress (processed total : ℕ)
  | resultCommit
  | errorCommit
  | cleanup
deriving DecidableEq, Repr

/-- The `for i, file_path in enumerate(file_paths)` loop of
`process_legal_documents_background`: a successful unit appends its index to
`processed_files` and then updates the job's progress to `(i + 1, n)`; a
unit whose processing raises is logged and skipped (`continue`), as is a
unit with insufficient extracted text — neither touches the progress
tracker. -/
def driverLoop (jid : String) (n : ℕ) : ℕ → List UnitOutcome → List ℕ → Store →
    List ℕ × Store × List DriverEvent
  | _, [], acc, s => (acc, s, [])
  | i, u :: rest, acc, s =>
    match u with
    | .ok =>
      let s' := update_job_progress s jid (i + 1) n
      let (a, s'', evs) := driverLoop jid n (i + 1) rest (acc ++ [i]) s'
      (a, s'', .progress (i + 1) n :: evs)
    | .exn => driverLoop jid n (i + 1) rest acc s
    | .short => driverLoop jid n (i + 1) rest acc s

/-- Body of the outer `try` of `process_legal_documents_background`:
transition the job to Processing, run the per-unit loop, assemble and commit
the final result.  A systemic exception — one raised outside the per-unit
`try`, i.e. during result assembly/commit — is modelled by the input
`sysFail`; when present it escapes the body, carrying the store as mutated
so far. -/
def driverBody (jid : String) (units : List UnitOutcome) (sysFail : Option String)
    (now : ℤ) (s : Store) :
    Except (String × Store × List DriverEvent) (Store × List DriverEvent) :=
  let s1 := update_job_status s jid .processing now none none
  let (processed, s2, evs) := driverLoop jid units.length 0 units [] s1
  match sysFail with
  | some msg => Except.error (msg, s2, evs)
  | none => Except.ok (set_job_result s2 jid now processed, evs ++ [.resultCommit])

/-- `process_legal_documents_background`: the outer
`try`/`except Exception`/`finally`.  The handler marks the job Failed with
the exception's message; the `finally` block removes the temporary directory
(`shutil.rmtree(..., ignore_errors=True)`, which itself cannot raise).  The
run returns `.ok` precisely because the handler catches every exception the
body raises, so nothing propagates to the scheduler. -/
def process_legal_documents_background (jid : String) (units : List UnitOutcome)
    (sysFail : Option String) (now : ℤ) (s : Store) :
    Except String (Store × List DriverEvent) :=
  let afterTry : Store × List DriverEvent :=
    match driverBody jid units sysFail now s with
    | .ok (s', evs) => (s', evs)
    | .error (msg, s', evs) =>
      (set_job_error s' jid now ("Background processing failed: " ++ msg),
        evs ++ [.errorCommit])
  .ok (afterTry.1, afterTry.2 ++ [.cleanup])

/-! ### Operation sequences over the store -/

/-- The store operations the API layer can issue: `create_job`, `get_job`
(via the status endpoint), `update_job_status` (invoked by callers with a
bare status and no keyword arguments), `update_job_progress`,
`set_job_result` and `set_job_error`.  Wall-clock readings and generated
ids are inputs. -/
inductive Op where
  | create (jid : String) (jobType : String) (now : ℤ)
  | get (jid : String) (now : ℤ)
  | updateStatus (jid : String) (st : JobStatus) (now : ℤ)
  | updateProgress (jid : String) (processed total : ℕ)
  | setResult (jid : String) (now : ℤ) (r : List ℕ)
  | setError (jid : String) (now : ℤ) (e : String)
deriving DecidableEq, Repr

/-- Effect of one operation on the store. -/
def applyOp (s : Store) : Op → Store
  | .create jid ty now => create_job s jid ty now
  | .get jid now => (get_job s jid now).2
  | .updateStatus jid st now => update_job_status s jid st now none none
  | .updateProgress jid p t => update_job_progress s jid p t
  | .setResult jid now r => set_job_result s jid now r
  | .setError jid now e => set_job_error s jid now e

/-- Effect of a sequence of operations. -/
def applyOps (s : Store) (ops : List Op) : Store := ops.foldl applyOp s

/-- Admissibility of one operation for the terminal-stability discipline:
generated ids are fresh at creation (uuid collision-freedom within the store
lifetime), and no status-writing operation is issued against a job already
in a terminal state. -/
def stepOk (s : Store) : Op → Prop
  | .create jid _ _ => s.find jid = none
  | .updateStatus jid _ _ => ∀ j, s.find jid = some j → j.status.isTerminal = false
  | .setResult jid _ _ => ∀ j, s.find jid = some j → j.status.isTerminal = false
  | .setError jid _ _ => ∀ j, s.find jid = some j → j.status.isTerminal = false
  | _ => True

/-- A sequence of operations each admissible in the state it runs in. -/
def SeqOk : Store → List Op → Prop
  | _, [] => True
  | s, op :: rest => stepOk s op ∧ SeqOk (applyOp s op) rest

/-- Additional per-step restriction matching the API layer's usage: terminal
statuses are only written through `set_job_result` / `set_job_error`, never
through a bare `update_job_status` (whose single call site passes
`PROCESSING`). -/
def stepGuarded : Op → Prop
  | .updateStatus _ st _ => st.isTerminal = false
  | _ => True

/-- A sequence admissible for the result/error invariant: `SeqOk` plus the
terminal-status-write restriction at every step. -/
def SeqGuarded : Store → List Op → Prop
  | _, [] => True
  | s, op :: rest => stepOk s op ∧ stepGuarded op ∧ SeqGuarded (applyOp s op) rest

/-! ### Store access lemmas -/

theorem find_cons (p : String × Job) (rest : Store) (k : String) :
    Store.find (p :: rest) k = (if k = p.1 then some p.2 else rest.find k) := by
  cases p with
  | mk a b =>
    simp only [Store.find, List.lookup]
    by_cases h : k = a
    · simp [h]
    · simp [h, beq_false_of_ne h]

theorem find_modify (s : Store) (jid k : String) (f : Job → Job) :
    (s.modify jid f).find k = (if k = jid then (s.find k).map f else s.find k) := by
  induction s with
  | nil => simp [Store.modify, Store.find]
  | cons p rest ih =>
    simp only [Store.modify, List.map_cons] at *
    by_cases h1 : p.1 = jid
    · by_cases h2 : k = jid <;>
        simp [find_cons, h1, h2, ih, Store.modify]
    · by_cases h2 : k = p.1 <;>
        simp [find_cons, h1, h2, ih, Store.modify]

theorem find_append_single (s : Store) (jid k : String) (j : Job) :
    Store.find (s ++ [(jid, j)]) k =
      ((s.find k).rec (if k = jid then some j else none) (fun v => some v)) := by
  induction s with
  | nil => by_cases h : k = jid <;> simp [Store.find, List.lookup, h, beq_false_of_ne]
  | cons p rest ih =>
    by_cases h : k = p.1
    · simp only [List.cons_append, find_cons, h, if_true]
    · simp only [List.cons_append, find_cons, h, if_false, ih, ite_false]

theorem mem_of_find_some {s : Store} {k : String} {j : Job}
    (h : s.find k = some j) : (k, j) ∈ s := by
  induction s with
  | nil => simp [Store.find] at h
  | cons p rest ih =>
    rw [find_cons] at h
    by_cases hk : k = p.1
    · rw [if_pos hk] at h
      cases h
      subst hk
      exact List.mem_cons_self _ _
    · rw [if_neg hk] at h
      exact List.mem_cons_of_mem _ (ih h)

theorem find_isSome_of_mem {s : Store} {k : String} {j : Job}
    (h : (k, j) ∈ s) : (s.find k).isSome := by
  induction s with
  | nil => simp at h
  | cons p rest ih =>
    rw [find_cons]
    rcases List.mem_cons.mp h with h1 | h2
    · simp [← h1]
    · by_cases hk : k = p.1 <;> simp [hk, ih h2]

theorem find_filter_none {s : Store} {k : String} (pred : String × Job → Bool)
    (h : s.find k = none) : Store.find (s.filter pred) k = none := by
  induction s with
  | nil => rfl
  | cons p rest ih =>
    rw [find_cons] at h
    by_cases hk : k = p.1
    · rw [if_pos hk] at h
      exact absurd h (by simp)
    · rw [if_neg hk] at h
      by_cases hp : pred p
      · rw [List.filter_cons_of_pos hp, find_cons, if_neg hk]
        exact ih h
      · rw [List.filter_cons_of_neg (by simpa using hp)]
        exact ih h

/-! ### Effect of each operation on individual records -/

theorem find_update_job_status (s : Store) (jid : String) (st : JobStatus) (now : ℤ)
    (r? : Option (List ℕ)) (e? : Option String) :
    (update_job_status s jid st now r? e?).find jid
      = (s.find jid).map (applyStatusUpdate st now r? e?) := by
  unfold update_job_status
  cases h : s.find jid with
  | none => simp [h]
  | some j => simp [h, find_modify]

theorem find_update_job_status_ne (s : Store) (jid k : String) (st : JobStatus)
    (now : ℤ) (r? : Option (List ℕ)) (e? : Option String) (h : k ≠ jid) :
    (update_job_status s jid st now r? e?).find k = s.find k := by
  unfold update_job_status
  cases hj : s.find jid with
  | none => simp [hj]
  | some j => simp [hj, find_modify, h]

theorem find_update_job_progress (s : Store) (jid : String) (p t : ℕ) :
    (update_job_progress s jid p t).find jid
      = (s.find jid).map fun j =>
          { j with processed_files := p, total_files := t,
                   progress := if 0 < t then pyPercent p t else 0 } := by
  unfold update_job_progress
  cases h : s.find jid with
  | none => simp [h]
  | some j => simp [h, find_modify]

theorem find_update_job_progress_ne (s : Store) (jid k : String) (p t : ℕ)
    (h : k ≠ jid) :
    (update_job_progress s jid p t).find k = s.find k := by
  unfold update_job_progress
  cases hj : s.find jid with
  | none => simp [hj]
  | some j => simp [hj, find_modify, h]

/-- Updating a status never touches `started_at`: the guard in
`update_job_status` tests dict-key membership, which holds on every record
the store creates, so its branch is dead. -/
theorem applyStatusUpdate_started_at (st : JobStatus) (now : ℤ)
    (r? : Option (List ℕ)) (e? : Option String) (j : Job) :
    (applyStatusUpdate st now r? e? j).started_at = j.started_at := by
  cases st <;> cases r? <;> cases e? <;> rfl

/-! ### Claim theorems -/

/-- C1: `get_job` applies the lazy timeout check.  A stored job that is
Processing with `started_at` more than `job_timeout = 300` seconds before
`now` is transitioned to Failed with an error message containing
"timed out", and the updated record is returned; a stored job not meeting
that condition is returned as is, with the store unchanged. -/
theorem C1_get_job_timeout (s : Store) (jid : String) (j : Job) (now : ℤ)
    (h : s.find jid = some j) :
    (∀ t0, j.status = .processing → j.started_at = some t0 → job_timeout < now - t0 →
      ∃ j' s', get_job s jid now = (some j', s') ∧
        j'.status = .failed ∧ j'.error = some timeoutMessage ∧
        (∃ pre post, timeoutMessage = pre ++ "timed out" ++ post) ∧
        s'.find jid = some j' ∧
        ∀ k, k ≠ jid → s'.find k = s.find k) ∧
    (¬ (j.status = .processing ∧ ∃ t0, j.started_at = some t0 ∧ job_timeout < now - t0) →
      get_job s jid now = (some j, s)) := by
  constructor
  · intro t0 hst hstart htime
    have hiso : (s.find jid).isSome := by rw [h]; rfl
    unfold get_job
    rw [h]
    simp only [hst, if_true, hstart, htime, if_pos]
    set s2 := set_job_error s jid now timeoutMessage with hs2
    set j1 := applyStatusUpdate .failed now none (some timeoutMessage) j with hj1
    have hf1 : s2.find jid = some j1 := by
      rw [hs2]
      unfold set_job_error
      rw [find_update_job_status, h]
      rfl
    have hf2 : (s2.modify jid fun j => { j with status := .failed }).find jid
        = some { j1 with status := .failed } := by
      rw [find_modify, if_pos rfl, hf1]
      rfl
    refine ⟨{ j1 with status := .failed },
      s2.modify jid fun j => { j with status := .failed }, ?_, rfl, ?_, ?_, hf2, ?_⟩
    · rw [hf2]
    · show j1.error = some timeoutMessage
      rw [hj1]
      cases j
      rfl
    · exact ⟨"Job ", " after 5 minutes", rfl⟩
    · intro k hk
      rw [find_modify, if_neg hk, hs2]
      unfold set_job_error
      rw [find_update_job_status_ne _ _ _ _ _ _ _ hk]
  · intro hn
    unfold get_job
    rw [h]
    by_cases hst : j.status = .processing
    · cases hs : j.started_at with
      | none => simp [hst, hs]
      | some t0 =>
        have hnt : ¬ job_timeout < now - t0 := fun hlt => hn ⟨hst, t0, hs, hlt⟩
        simp [hst, hs, hnt]
    · simp [hst]

/-- Sample Processing record whose `started_at` lies 400 seconds before the
probing read. -/
def timedOutJob : Job :=
  { job_type := "legal_analysis", status := .processing, created_at := 0,
    started_at := some 0, completed_at := none, result := none, error := none,
    progress := 0, total_files := 3, processed_files := 0 }

theorem C1_get_job_timeout_witness :
    Store.find [("a", timedOutJob)] "a" = some timedOutJob ∧
    ∃ j' s', get_job [("a", timedOutJob)] "a" 400 = (some j', s') ∧
      j'.status = .failed ∧ j'.error = some timeoutMessage := by
  have h : Store.find [("a", timedOutJob)] "a" = some timedOutJob := rfl
  have hc := (C1_get_job_timeout [("a", timedOutJob)] "a" timedOutJob 400 h).1 0
    rfl rfl (by decide)
  obtain ⟨j', s', h1, h2, h3, -, -, -⟩ := hc
  exact ⟨h, j', s', h1, h2, h3⟩

/-- C2 (code evaluation at the failing input): a freshly created job moved
to Processing still has `started_at = none`, and more generally no
`update_job_status` call ever changes `started_at` — the source guards the
assignment with `"started_at" not in self.jobs[job_id]`, which is false for
every stored record because `create_job` inserts that key. -/
theorem C2_started_at_never_set :
    (Store.find
        (update_job_status (create_job [] "a" "legal_analysis" 0) "a" .processing 5 none none)
        "a").map Job.started_at = some none ∧
    ∀ (s : Store) (jid : String) (st : JobStatus) (now : ℤ) (r? : Option (List ℕ))
      (e? : Option String) (j : Job),
      (update_job_status s jid st now r? e?).find jid = some j →
      ∃ j0, s.find jid = some j0 ∧ j.started_at = j0.started_at := by
  constructor
  · rfl
  · intro s jid st now r? e? j hj
    rw [find_update_job_status] at hj
    cases h0 : s.find jid with
    | none => rw [h0] at hj; cases hj
    | some j0 =>
      rw [h0] at hj
      cases hj
      exact ⟨j0, rfl, applyStatusUpdate_started_at ..⟩

/-- C10: the status endpoint reports `progress = 100` for every Completed
job — the handler returns the literal `100`, not the stored counter — and
the read leaves the stored record untouched. -/
theorem C10_completed_reports_100 (s : Store) (jid : String) (j : Job) (now : ℤ)
    (h : s.find jid = some j) (hc : j.status = .completed) :
    get_job_status s jid now =
      (.done 100 j.created_at j.started_at j.completed_at j.result, s) := by
  unfold get_job_status get_job
  rw [h]
  simp [hc]

/-- Sample Completed record whose stored progress counter stayed below 100
(every work unit was skipped). -/
def skippedUnitsJob : Job :=
  { job_type := "legal_analysis", status := .completed, created_at := 0,
    started_at := none, completed_at := some 9, result := some [],
    error := none, progress := 40, total_files := 3, processed_files := 1 }

theorem C10_completed_reports_100_witness :
    Store.find [("b", skippedUnitsJob)] "b" = some skippedUnitsJob ∧
    skippedUnitsJob.status = .completed ∧
    skippedUnitsJob.progress = 40 ∧
    get_job_status [("b", skippedUnitsJob)] "b" 0 =
      (.done 100 skippedUnitsJob.created_at skippedUnitsJob.started_at
        skippedUnitsJob.completed_at skippedUnitsJob.result, [("b", skippedUnitsJob)]) :=
  ⟨rfl, rfl, rfl, C10_completed_reports_100 [("b", skippedUnitsJob)] "b" skippedUnitsJob 0 rfl rfl⟩

/-- C8 counterexample: `update_job_progress` computes
`int((processed / total) * 100)` in binary64 arithmetic, which is not the
exact floor.  Recording `(29, 100)` on a known job stores progress `28`,
while `floor(29 / 100 * 100) = 29`. -/
theorem C8_progress_floor_counterexample :
    (Store.find (update_job_progress (create_job [] "c" "legal_analysis" 0) "c" 29 100)
        "c").map Job.progress = some 28 ∧
    ((29 * 100) / 100 : ℤ) = 29 ∧ (28 : ℤ) ≠ 29 := by
  refine ⟨by decide, by decide, by decide⟩

/-- C8 amended: `update_job_progress` on a known job sets
`processed_files`/`total_files` and stores the binary64 evaluation of
`int((processed / total) * 100)` when `total > 0` (else `0`); on the
scenario inputs `(1,3), (2,3), (3,3)` this agrees with the exact floor,
yielding the sequence 33, 66, 100. -/
theorem C8_record_progress (s : Store) (jid : String) (j : Job) (p t : ℕ)
    (h : s.find jid = some j) :
    (update_job_progress s jid p t).find jid =
      some { j with processed_files := p, total_files := t,
                    progress := if 0 < t then pyPercent p t else 0 } ∧
    pyPercent 1 3 = 33 ∧ pyPercent 2 3 = 66 ∧ pyPercent 3 3 = 100 := by
  refine ⟨?_, by decide, by decide, by decide⟩
  rw [find_update_job_progress, h]
  rfl

theorem C8_record_progress_witness :
    Store.find [("a", timedOutJob)] "a" = some timedOutJob ∧
    ((update_job_progress [("a", timedOutJob)] "a" 1 3).find "a" =
      some { timedOutJob with processed_files := 1, total_files := 3,
                              progress := if 0 < 3 then pyPercent 1 3 else 0 } ∧
      pyPercent 1 3 = 33 ∧ pyPercent 2 3 = 66 ∧ pyPercent 3 3 = 100) :=
  ⟨rfl, C8_record_progress [("a", timedOutJob)] "a" timedOutJob 1 3 rfl⟩

/-! ### Bounds on the binary64 progress computation -/

theorem natLog2Aux_spec : ∀ (fuel n : ℕ), 1 ≤ n → n ≤ fuel →
    2 ^ natLog2Aux fuel n ≤ n ∧ n < 2 ^ (natLog2Aux fuel n + 1) := by
  intro fuel
  induction fuel with
  | zero => intro n h1 h2; omega
  | succ fuel ih =>
    intro n h1 h2
    by_cases h : 2 ≤ n
    · have hrec := ih (n / 2) (by omega) (by omega)
      simp only [natLog2Aux, h, if_true]
      have e1 : 2 ^ (natLog2Aux fuel (n / 2) + 1) = 2 * 2 ^ natLog2Aux fuel (n / 2) := by
        ring
      have e2 : 2 ^ (natLog2Aux fuel (n / 2) + 1 + 1) = 4 * 2 ^ natLog2Aux fuel (n / 2) := by
        ring
      omega
    · simp only [natLog2Aux, h, if_false]
      have : (2 : ℕ) ^ 1 = 2 := rfl
      omega

theorem natLog2_spec (n : ℕ) (h : 1 ≤ n) :
    2 ^ natLog2 n ≤ n ∧ n < 2 ^ (natLog2 n + 1) :=
  natLog2Aux_spec n n h le_rfl

/-- Lower-binade inequality of `ilog2`: as rationals,
`2 ^ ilog2 a b ≤ a / b`, stated multiplicatively over ℕ. -/
theorem ilog2_lower {a b : ℕ} (ha : 1 ≤ a) (hb : 1 ≤ b) :
    b * 2 ^ (ilog2 a b).toNat ≤ a * 2 ^ (-(ilog2 a b)).toNat := by
  unfold ilog2
  by_cases hba : b ≤ a
  · simp only [hba, if_true, Int.toNat_natCast]
    have e0 : (-(natLog2 (a / b) : ℤ)).toNat = 0 := by omega
    rw [e0, pow_zero, Nat.mul_one]
    have hdiv1 : 1 ≤ a / b := (Nat.one_le_div_iff hb).mpr hba
    have hspec := (natLog2_spec (a / b) hdiv1).1
    calc b * 2 ^ natLog2 (a / b) = 2 ^ natLog2 (a / b) * b := Nat.mul_comm _ _
      _ ≤ a := (Nat.le_div_iff_mul_le hb).mp hspec
  · simp only [hba, if_false]
    have hab : a < b := by omega
    have hdiv1 : 1 ≤ b / a := (Nat.one_le_div_iff ha).mpr (by omega)
    have hspec := natLog2_spec (b / a) hdiv1
    set f := natLog2 (b / a) with hf
    have hle : a * 2 ^ f ≤ b := by
      calc a * 2 ^ f = 2 ^ f * a := Nat.mul_comm _ _
        _ ≤ b := (Nat.le_div_iff_mul_le ha).mp hspec.1
    have hlt : b < a * 2 ^ (f + 1) := by
      have := (Nat.div_lt_iff_lt_mul ha).mp hspec.2
      calc b < 2 ^ (f + 1) * a := this
        _ = a * 2 ^ (f + 1) := Nat.mul_comm _ _
    by_cases hpow : b = a * 2 ^ f
    · simp only [hpow, if_true]
      have e0 : (-(f : ℤ)).toNat = 0 := by omega
      have e1 : (-(-(f : ℤ))).toNat = f := by omega
      rw [e0, e1, pow_zero, Nat.mul_one]
    · simp only [hpow, if_false]
      have e0 : (-(f : ℤ) - 1).toNat = 0 := by omega
      have e1 : (-(-(f : ℤ) - 1)).toNat = f + 1 := by omega
      rw [e0, e1, pow_zero, Nat.mul_one]
      omega

/-- `roundNEFrac` never rounds past an integer bound lying above the
fraction. -/
theorem roundNEFrac_le {num den N : ℕ} (hden : 1 ≤ den) (h : num ≤ N * den) :
    roundNEFrac num den ≤ N := by
  have hdiv : num / den ≤ N := by
    have h2 : num / den ≤ N * den / den := Nat.div_le_div_right h
    rwa [Nat.mul_div_cancel _ hden] at h2
  have hdm := Nat.div_add_mod num den
  have hlt : ¬ 2 * (num % den) < den → num / den < N := by
    intro hc
    rcases lt_or_eq_of_le hdiv with h' | h'
    · exact h'
    · exfalso
      have h2 : num ≤ den * N := by rwa [Nat.mul_comm] at h
      rw [h'] at hdm
      generalize den * N = M at hdm h2
      omega
  unfold roundNEFrac
  dsimp only
  split_ifs with c1 c2 c3
  · exact hdiv
  · exact hlt c1
  · exact hdiv
  · exact hlt c1

/-- `roundNEFrac` of a fraction at least 1 is at least 1. -/
theorem le_roundNEFrac {num den : ℕ} (hden : 1 ≤ den) (h : den ≤ num) :
    1 ≤ roundNEFrac num den := by
  have h1 : 1 ≤ num / den := (Nat.one_le_div_iff hden).mpr h
  unfold roundNEFrac
  dsimp only
  split_ifs <;> omega

/-- A positive fraction bounded by `n ≤ 2^52` rounds to an exponent at most
0. -/
theorem fround_exp_nonpos {a b n : ℕ} (ha : 1 ≤ a) (hb : 1 ≤ b) (hn52 : n ≤ 2 ^ 52)
    (h : a ≤ n * b) : (fround a b).2 ≤ 0 := by
  show ilog2 a b - 52 ≤ 0
  by_contra hcon
  have hk : (53 : ℤ) ≤ ilog2 a b := by omega
  have hlow := ilog2_lower ha hb
  have e0 : (-(ilog2 a b)).toNat = 0 := by omega
  have e53 : 2 ^ 53 ≤ 2 ^ (ilog2 a b).toNat := by
    apply Nat.pow_le_pow_right (by omega)
    omega
  rw [e0, pow_zero, Nat.mul_one] at hlow
  have hb53 : b * 2 ^ 53 ≤ a := le_trans (Nat.mul_le_mul_left b e53) hlow
  have hbb : b * 2 ^ 53 ≤ 2 ^ 52 * b :=
    le_trans hb53 (le_trans h (Nat.mul_le_mul_right b hn52))
  rw [Nat.mul_comm (2 ^ 52) b] at hbb
  have h2 : (2:ℕ) ^ 53 ≤ 2 ^ 52 := Nat.le_of_mul_le_mul_left hbb (by omega)
  have h53 : (2:ℕ) ^ 53 = 2 * 2 ^ 52 := by ring
  have hpos : 1 ≤ (2:ℕ) ^ 52 := Nat.one_le_two_pow
  omega

/-- Mantissa produced by `fround` on a positive fraction is positive. -/
theorem fround_mantissa_pos {a b : ℕ} (ha : 1 ≤ a) (hb : 1 ≤ b) :
    1 ≤ (fround a b).1 := by
  show 1 ≤ roundNEFrac (a * 2 ^ (-(ilog2 a b - 52)).toNat) (b * 2 ^ (ilog2 a b - 52).toNat)
  have hlow := ilog2_lower ha hb
  apply le_roundNEFrac
  · exact Nat.one_le_iff_ne_zero.mpr (by positivity)
  · have h1 : (ilog2 a b - 52).toNat ≤ (ilog2 a b).toNat := by omega
    have h2 : (-(ilog2 a b)).toNat ≤ (-(ilog2 a b - 52)).toNat := by omega
    calc b * 2 ^ (ilog2 a b - 52).toNat
        ≤ b * 2 ^ (ilog2 a b).toNat :=
          Nat.mul_le_mul_left b (Nat.pow_le_pow_right (by omega) h1)
      _ ≤ a * 2 ^ (-(ilog2 a b)).toNat := hlow
      _ ≤ a * 2 ^ (-(ilog2 a b - 52)).toNat :=
          Nat.mul_le_mul_left a (Nat.pow_le_pow_right (by omega) h2)

/-- The mantissa of `fround a b` respects an integer upper bound `n` on the
fraction (`n ≤ 2^52`): the rounded value `m · 2^e` is at most `n`. -/
theorem fround_le {a b n : ℕ} (ha : 1 ≤ a) (hb : 1 ≤ b) (hn52 : n ≤ 2 ^ 52)
    (h : a ≤ n * b) :
    (fround a b).1 ≤ n * 2 ^ (-(fround a b).2).toNat := by
  have he := fround_exp_nonpos ha hb hn52 h
  show roundNEFrac (a * 2 ^ (-(ilog2 a b - 52)).toNat) (b * 2 ^ (ilog2 a b - 52).toNat)
      ≤ n * 2 ^ (-(ilog2 a b - 52)).toNat
  have e0 : (ilog2 a b - 52).toNat = 0 := by
    have h2 : (fround a b).2 = ilog2 a b - 52 := rfl
    omega
  rw [e0, pow_zero, Nat.mul_one]
  apply roundNEFrac_le hb
  calc a * 2 ^ (-(ilog2 a b - 52)).toNat
      ≤ (n * b) * 2 ^ (-(ilog2 a b - 52)).toNat := Nat.mul_le_mul_right _ h
    _ = (n * 2 ^ (-(ilog2 a b - 52)).toNat) * b := by ring

/-- The stored progress value is nonnegative. -/
theorem pyPercent_nonneg (p t : ℕ) : 0 ≤ pyPercent p t := by
  unfold pyPercent floorVal
  dsimp only
  split_ifs
  · exact le_refl 0
  · exact Int.natCast_nonneg _
  · exact Int.natCast_nonneg _

/-- The stored progress value never exceeds 100 when `processed ≤ total`. -/
theorem pyPercent_le_100 {p t : ℕ} (h : p ≤ t) : pyPercent p t ≤ 100 := by
  unfold pyPercent
  split_ifs with h0
  · omega
  · have hp : 1 ≤ p := by omega
    have ht : 1 ≤ t := by omega
    have h1t : p ≤ 1 * t := by omega
    have he1 : (fround p t).2 ≤ 0 := fround_exp_nonpos hp ht (by norm_num) h1t
    have hm1 : (fround p t).1 ≤ 1 * 2 ^ (-(fround p t).2).toNat :=
      fround_le hp ht (by norm_num) h1t
    have hm1pos : 1 ≤ (fround p t).1 := fround_mantissa_pos hp ht
    have het : (fround p t).2.toNat = 0 := by omega
    dsimp only
    rw [het, pow_zero, Nat.mul_one]
    have hb2pos : 1 ≤ (2:ℕ) ^ (-(fround p t).2).toNat := Nat.one_le_two_pow
    have ha2pos : 1 ≤ 100 * (fround p t).1 := by omega
    have hbound : 100 * (fround p t).1 ≤ 100 * 2 ^ (-(fround p t).2).toNat := by
      calc 100 * (fround p t).1
          ≤ 100 * (1 * 2 ^ (-(fround p t).2).toNat) := Nat.mul_le_mul_left 100 hm1
        _ = 100 * 2 ^ (-(fround p t).2).toNat := by ring
    have he2 := fround_exp_nonpos ha2pos hb2pos (by norm_num) hbound
    have hm2 := fround_le ha2pos hb2pos (by norm_num) hbound
    unfold floorVal
    split_ifs with hsgn
    · have hz : (fround (100 * (fround p t).1) (2 ^ (-(fround p t).2).toNat)).2 = 0 :=
        le_antisymm he2 hsgn
      rw [hz] at hm2 ⊢
      simp only [Int.toNat_zero, pow_zero, Nat.mul_one] at hm2 ⊢
      simp only [Int.neg_zero, Int.toNat_zero, pow_zero, Nat.mul_one] at hm2
      exact_mod_cast hm2
    · have hq : (fround (100 * (fround p t).1) (2 ^ (-(fround p t).2).toNat)).1 /
          2 ^ (-(fround (100 * (fround p t).1) (2 ^ (-(fround p t).2).toNat)).2).toNat ≤ 100 := by
        have h3 := Nat.div_le_div_right
          (c := 2 ^ (-(fround (100 * (fround p t).1) (2 ^ (-(fround p t).2).toNat)).2).toNat) hm2
        rwa [Nat.mul_div_cancel _ Nat.one_le_two_pow] at h3
      exact_mod_cast hq

/-! ### Progress-range invariant (C9) -/

/-- Progress-range property of one record. -/
def progressInRange (j : Job) : Prop := 0 ≤ j.progress ∧ j.progress ≤ 100

/-- Every record of the store has progress within `[0, 100]`. -/
def StoreProgressOk (s : Store) : Prop := ∀ p ∈ s, progressInRange p.2

/-- The data-model precondition on progress updates (C9's hypothesis):
counts are naturals, with `processed ≤ total` whenever `total > 0`. -/
def progressPre : Op → Prop
  | .updateProgress _ p t => 0 < t → p ≤ t
  | _ => True

theorem storeProgressOk_modify {s : Store} {jid : String} {f : Job → Job}
    (hs : StoreProgressOk s) (hf : ∀ j, progressInRange j → progressInRange (f j)) :
    StoreProgressOk (s.modify jid f) := by
  intro p hp
  unfold Store.modify at hp
  obtain ⟨q, hq, rfl⟩ := List.mem_map.mp hp
  by_cases h : q.1 = jid
  · simp only [h, if_true]
    exact hf _ (hs q hq)
  · simp only [h, if_false]
    exact hs q hq

theorem applyStatusUpdate_progress (st : JobStatus) (now : ℤ) (r? : Option (List ℕ))
    (e? : Option String) (j : Job) :
    (applyStatusUpdate st now r? e? j).progress = j.progress := by
  cases st <;> cases r? <;> cases e? <;> rfl

theorem storeProgressOk_update_job_status {s : Store} {jid : String} {st : JobStatus}
    {now : ℤ} {r? : Option (List ℕ)} {e? : Option String} (hs : StoreProgressOk s) :
    StoreProgressOk (update_job_status s jid st now r? e?) := by
  unfold update_job_status
  split_ifs
  · refine storeProgressOk_modify hs fun j hj => ?_
    unfold progressInRange at *
    rw [applyStatusUpdate_progress]
    exact hj
  · exact hs

theorem storeProgressOk_update_job_progress {s : Store} {jid : String} {p t : ℕ}
    (hs : StoreProgressOk s) (hpre : 0 < t → p ≤ t) :
    StoreProgressOk (update_job_progress s jid p t) := by
  unfold update_job_progress
  by_cases hf : (Store.find s jid).isSome
  · rw [if_pos hf]
    refine storeProgressOk_modify hs fun j hj => ?_
    unfold progressInRange
    dsimp only
    by_cases ht : 0 < t
    · rw [if_pos ht]
      exact ⟨pyPercent_nonneg p t, pyPercent_le_100 (hpre ht)⟩
    · rw [if_neg ht]
      exact ⟨le_refl 0, by norm_num⟩
  · rw [if_neg hf]
    exact hs

theorem storeProgressOk_get {s : Store} {jid : String} {now : ℤ}
    (hs : StoreProgressOk s) : StoreProgressOk (get_job s jid now).2 := by
  unfold get_job
  cases h : s.find jid with
  | none => exact hs
  | some j =>
    dsimp only
    by_cases hst : j.status = .processing
    · cases hsa : j.started_at with
      | none => simp only [hst, if_true, hsa]; exact hs
      | some t0 =>
        by_cases htime : job_timeout < now - t0
        · simp only [hst, if_true, hsa, htime]
          refine storeProgressOk_modify ?_ fun j hj => hj
          unfold set_job_error
          exact storeProgressOk_update_job_status hs
        · simp only [hst, if_true, hsa, htime, if_false]; exact hs
    · simp only [hst, if_false]; exact hs

theorem storeProgressOk_insert {s : Store} {jid : String} {j : Job}
    (hs : StoreProgressOk s) (hj : progressInRange j) :
    StoreProgressOk (s.insert jid j) := by
  unfold Store.insert
  split_ifs
  · intro p hp
    obtain ⟨q, hq, rfl⟩ := List.mem_map.mp hp
    by_cases h : q.1 = jid
    · simp only [h, if_true]
      exact hj
    · simp only [h, if_false]
      exact hs q hq
  · intro p hp
    rcases List.mem_append.mp hp with h | h
    · exact hs p h
    · simp only [List.mem_singleton] at h
      rw [h]
      exact hj

theorem storeProgressOk_create {s : Store} {jid ty : String} {now : ℤ}
    (hs : StoreProgressOk s) : StoreProgressOk (create_job s jid ty now) := by
  unfold create_job
  dsimp only
  apply storeProgressOk_insert
  · split_ifs
    · intro p hp
      exact hs p (List.mem_of_mem_filter hp)
    · exact hs
  · exact ⟨le_refl 0, by norm_num [newJob]⟩

theorem storeProgressOk_applyOp {s : Store} {op : Op} (hs : StoreProgressOk s)
    (hpre : progressPre op) : StoreProgressOk (applyOp s op) := by
  cases op with
  | create jid ty now => exact storeProgressOk_create hs
  | get jid now => exact storeProgressOk_get hs
  | updateStatus jid st now => exact storeProgressOk_update_job_status hs
  | updateProgress jid p t => exact storeProgressOk_update_job_progress hs hpre
  | setResult jid now r => exact storeProgressOk_update_job_status hs
  | setError jid now e => exact storeProgressOk_update_job_status hs

/-- C9: across every sequence of store operations whose progress updates
satisfy the data-model precondition (counts nonnegative, and
`processed ≤ total` whenever `total > 0`), every stored job keeps an
integer progress value within `[0, 100]` — including through the binary64
rounding performed by `update_job_progress`. -/
theorem C9_progress_in_range (s : Store) (ops : List Op)
    (h0 : StoreProgressOk s) (hpre : ∀ op ∈ ops, progressPre op) :
    StoreProgressOk (applyOps s ops) := by
  induction ops generalizing s with
  | nil => exact h0
  | cons op rest ih =>
    exact ih (applyOp s op)
      (storeProgressOk_applyOp h0 (hpre op (List.mem_cons_self _ _)))
      (fun o ho => hpre o (List.mem_cons_of_mem _ ho))

theorem C9_progress_in_range_witness :
    (StoreProgressOk [] ∧
      ∀ op ∈ [Op.create "a" "legal_analysis" 0, Op.updateStatus "a" .processing 1,
        Op.updateProgress "a" 2 3, Op.updateProgress "a" 3 3], progressPre op) ∧
    StoreProgressOk (applyOps []
      [Op.create "a" "legal_analysis" 0, Op.updateStatus "a" .processing 1,
        Op.updateProgress "a" 2 3, Op.updateProgress "a" 3 3]) := by
  have h0 : StoreProgressOk [] := by
    intro p hp
    simp at hp
  have hpre : ∀ op ∈ [Op.create "a" "legal_analysis" 0, Op.updateStatus "a" .processing 1,
      Op.updateProgress "a" 2 3, Op.updateProgress "a" 3 3], progressPre op := by
    intro op hop
    simp only [List.mem_cons, List.not_mem_nil, or_false] at hop
    rcases hop with rfl | rfl | rfl | rfl
    · trivial
    · trivial
    · intro h3
      omega
    · intro h3
      omega
  exact ⟨⟨h0, hpre⟩, C9_progress_in_range _ _ h0 hpre⟩

/-! ### Key-uniqueness machinery

The Python store is a dict, so its keys are unique; the association-list
model carries that as a `Nodup` fact on the key list where a proof needs
it. -/

theorem find_eq_none_iff {s : Store} {k : String} :
    s.find k = none ↔ k ∉ s.map Prod.fst := by
  induction s with
  | nil => simp [Store.find]
  | cons p rest ih =>
    rw [find_cons]
    by_cases h : k = p.1
    · simp [h]
    · simp [h, ih, Ne.symm h]

theorem find_eq_of_mem_nodup {s : Store} {k : String} {v : Job}
    (hm : (k, v) ∈ s) (hnd : (s.map Prod.fst).Nodup) : s.find k = some v := by
  induction s with
  | nil => simp at hm
  | cons p rest ih =>
    rw [find_cons]
    rcases List.mem_cons.mp hm with h1 | h2
    · rw [← h1]
      simp
    · have hk : k ≠ p.1 := by
        intro hkp
        have hmem : k ∈ rest.map Prod.fst := List.mem_map.mpr ⟨(k, v), h2, rfl⟩
        simp only [List.map_cons, List.nodup_cons] at hnd
        rw [hkp] at hmem
        exact hnd.1 hmem
      rw [if_neg hk]
      exact ih h2 (by simp only [List.map_cons, List.nodup_cons] at hnd; exact hnd.2)

theorem keys_modify (s : Store) (jid : String) (f : Job → Job) :
    (s.modify jid f).map Prod.fst = s.map Prod.fst := by
  unfold Store.modify
  rw [List.map_map]
  apply List.map_congr_left
  intro p _
  by_cases h : p.1 = jid <;> simp [h]

theorem keys_update_job_status (s : Store) (jid : String) (st : JobStatus) (now : ℤ)
    (r? : Option (List ℕ)) (e? : Option String) :
    ((update_job_status s jid st now r? e?).map Prod.fst) = s.map Prod.fst := by
  unfold update_job_status
  split_ifs
  · exact keys_modify ..
  · rfl

theorem keys_update_job_progress (s : Store) (jid : String) (p t : ℕ) :
    ((update_job_progress s jid p t).map Prod.fst) = s.map Prod.fst := by
  unfold update_job_progress
  by_cases hf : (Store.find s jid).isSome
  · rw [if_pos hf]
    exact keys_modify ..
  · rw [if_neg hf]

/-- The store produced by `get_job` is either untouched or the stored
record under `jid` was Processing with a stale `started_at`, and the result
store is the timeout mutation. -/
theorem get_job_snd (s : Store) (jid : String) (now : ℤ) :
    (get_job s jid now).2 = s ∨
    (∃ j0 t0, s.find jid = some j0 ∧ j0.status = .processing ∧
      j0.started_at = some t0 ∧ job_timeout < now - t0 ∧
      (get_job s jid now).2 =
        (set_job_error s jid now timeoutMessage).modify jid
          fun j => { j with status := .failed }) := by
  unfold get_job
  cases h : s.find jid with
  | none => left; rfl
  | some j =>
    dsimp only
    by_cases hst : j.status = .processing
    · cases hsa : j.started_at with
      | none => left; simp [hst, hsa]
      | some t0 =>
        by_cases htime : job_timeout < now - t0
        · right
          refine ⟨j, t0, rfl, hst, hsa, htime, ?_⟩
          simp [hst, hsa, htime]
        · left; simp [hst, hsa, htime]
    · left; simp [hst]

theorem keys_get_job (s : Store) (jid : String) (now : ℤ) :
    ((get_job s jid now).2.map Prod.fst) = s.map Prod.fst := by
  rcases get_job_snd s jid now with h | ⟨j0, t0, -, -, -, -, h⟩
  · rw [h]
  · rw [h, keys_modify]
    unfold set_job_error
    exact keys_update_job_status ..

theorem nodupKeys_applyOp {s : Store} {op : Op}
    (hnd : (s.map Prod.fst).Nodup) (hok : stepOk s op) :
    ((applyOp s op).map Prod.fst).Nodup := by
  cases op with
  | create jid ty now =>
    show ((create_job s jid ty now).map Prod.fst).Nodup
    unfold create_job
    dsimp only
    have hfresh : s.find jid = none := hok
    have hbase : Store.find (if max_jobs ≤ s.length then cleanup_old_jobs s else s) jid = none ∧
        (((if max_jobs ≤ s.length then cleanup_old_jobs s else s) : Store).map Prod.fst).Nodup := by
      split_ifs
      · exact ⟨find_filter_none _ hfresh,
          ((List.filter_sublist s).map Prod.fst).nodup hnd⟩
      · exact ⟨hfresh, hnd⟩
    generalize hs0 : (if max_jobs ≤ s.length then cleanup_old_jobs s else s) = s0 at hbase
    obtain ⟨hf0, hnd0⟩ := hbase
    unfold Store.insert
    rw [hf0]
    simp only [Option.isSome_none, Bool.false_eq_true, if_false, List.map_append,
      List.map_cons, List.map_nil]
    rw [List.nodup_append]
    refine ⟨hnd0, List.nodup_singleton _, ?_⟩
    intro a ha
    simp only [List.mem_singleton]
    rintro rfl
    exact (find_eq_none_iff.mp hf0) ha
  | get jid now =>
    show (((get_job s jid now).2.map Prod.fst)).Nodup
    rw [keys_get_job]
    exact hnd
  | updateStatus jid st now =>
    show (((update_job_status s jid st now none none).map Prod.fst)).Nodup
    rw [keys_update_job_status]
    exact hnd
  | updateProgress jid p t =>
    show (((update_job_progress s jid p t).map Prod.fst)).Nodup
    rw [keys_update_job_progress]
    exact hnd
  | setResult jid now r =>
    show (((update_job_status s jid .completed now (some r) none).map Prod.fst)).Nodup
    rw [keys_update_job_status]
    exact hnd
  | setError jid now e =>
    show (((update_job_status s jid .failed now none (some e)).map Prod.fst)).Nodup
    rw [keys_update_job_status]
    exact hnd

theorem applyStatusUpdate_status (st : JobStatus) (now : ℤ) (r? : Option (List ℕ))
    (e? : Option String) (j : Job) :
    (applyStatusUpdate st now r? e? j).status = st := by
  cases st <;> cases r? <;> cases e? <;> rfl

theorem applyStatusUpdate_result (st : JobStatus) (now : ℤ) (r? : Option (List ℕ))
    (e? : Option String) (j : Job) :
    (applyStatusUpdate st now r? e? j).result =
      (match r? with | some r => some r | none => j.result) := by
  cases st <;> cases r? <;> cases e? <;> rfl

theorem applyStatusUpdate_error (st : JobStatus) (now : ℤ) (r? : Option (List ℕ))
    (e? : Option String) (j : Job) :
    (applyStatusUpdate st now r? e? j).error =
      (match e? with | some e => some e | none => j.error) := by
  cases st <;> cases r? <;> cases e? <;> rfl

/-! ### Terminal-status stability (C5) -/

theorem find_append_single_ne (s : Store) {jid k : String} (j : Job) (h : k ≠ jid) :
    Store.find (s ++ [(jid, j)]) k = s.find k := by
  induction s with
  | nil =>
    show Store.find [(jid, j)] k = none
    rw [find_cons, if_neg h]
    rfl
  | cons p rest ih =>
    rw [List.cons_append, find_cons, find_cons, ih]

theorem find_filter_sub {s : Store} {k : String} {pred : String × Job → Bool} {v : Job}
    (hnd : (s.map Prod.fst).Nodup)
    (h : Store.find (s.filter pred) k = some v) : s.find k = some v :=
  find_eq_of_mem_nodup (List.mem_of_mem_filter (mem_of_find_some h)) hnd

/-- A record found under a different key after `create_job` was already
present, with the same contents, before the call (eviction may only have
removed records). -/
theorem find_create_job_ne {s : Store} {jid k ty : String} {now : ℤ} {v : Job}
    (hnd : (s.map Prod.fst).Nodup) (hfresh : s.find jid = none) (hk : k ≠ jid)
    (h : (create_job s jid ty now).find k = some v) : s.find k = some v := by
  unfold create_job at h
  dsimp only at h
  revert h
  generalize hb : (if max_jobs ≤ s.length then cleanup_old_jobs s else s) = base
  intro h
  have hbase_sub : ∀ w, base.find k = some w → s.find k = some w := by
    intro w hw
    rw [← hb] at hw
    split_ifs at hw
    · exact find_filter_sub hnd hw
    · exact hw
  have hbf : base.find jid = none := by
    rw [← hb]
    split_ifs
    · exact find_filter_none _ hfresh
    · exact hfresh
  unfold Store.insert at h
  rw [hbf] at h
  simp only [Option.isSome_none, Bool.false_eq_true, if_false] at h
  rw [find_append_single_ne _ _ hk] at h
  exact hbase_sub v h

/-- Terminal-status tracking through one `update_job_status`-family call
admissible for the discipline. -/
theorem statusTracked_update {s : Store} {jid jid2 : String} {st : JobStatus} {now : ℤ}
    {r? : Option (List ℕ)} {e? : Option String} {st0 : JobStatus}
    (hterm : st0.isTerminal = true)
    (hok : ∀ w, s.find jid2 = some w → w.status.isTerminal = false)
    (hP : ∀ j', s.find jid = some j' → j'.status = st0) :
    ∀ j', (update_job_status s jid2 st now r? e?).find jid = some j' → j'.status = st0 := by
  intro j' hj'
  by_cases hsame : jid = jid2
  · subst hsame
    have hnone : s.find jid = none := by
      cases hf : s.find jid with
      | none => rfl
      | some w =>
        exfalso
        have h1 := hP w hf
        have h2 := hok w hf
        rw [h1, hterm] at h2
        cases h2
    unfold update_job_status at hj'
    rw [hnone] at hj'
    simp only [Option.isSome_none, Bool.false_eq_true, if_false] at hj'
    exact hP j' hj'
  · rw [find_update_job_status_ne _ _ _ _ _ _ _ hsame] at hj'
    exact hP j' hj'

/-- Terminal-status tracking through one admissible operation. -/
theorem statusTracked_applyOp {s : Store} {op : Op} {jid : String} {st0 : JobStatus}
    (hterm : st0.isTerminal = true)
    (hnd : (s.map Prod.fst).Nodup)
    (hok : stepOk s op)
    (hnc : ∀ ty now, op ≠ Op.create jid ty now)
    (hP : ∀ j', s.find jid = some j' → j'.status = st0) :
    ∀ j', (applyOp s op).find jid = some j' → j'.status = st0 := by
  intro j' hj'
  cases op with
  | create jid2 ty now =>
    have hne : jid ≠ jid2 := by
      rintro rfl
      exact hnc ty now rfl
    exact hP j' (find_create_job_ne hnd hok hne hj')
  | get jid2 now =>
    have hj'' : Store.find (get_job s jid2 now).2 jid = some j' := hj'
    rcases get_job_snd s jid2 now with heq | ⟨j0, t0, hj0, hst0, -, -, heq⟩
    · rw [heq] at hj''
      exact hP j' hj''
    · by_cases hsame : jid = jid2
      · exfalso
        subst hsame
        have h1 := hP j0 hj0
        rw [hst0] at h1
        rw [← h1] at hterm
        exact absurd hterm (by decide)
      · rw [heq, find_modify, if_neg hsame] at hj''
        unfold set_job_error at hj''
        rw [find_update_job_status_ne _ _ _ _ _ _ _ hsame] at hj''
        exact hP j' hj''
  | updateStatus jid2 st now => exact statusTracked_update hterm hok hP j' hj'
  | setResult jid2 now r => exact statusTracked_update hterm hok hP j' hj'
  | setError jid2 now e => exact statusTracked_update hterm hok hP j' hj'
  | updateProgress jid2 p t =>
    have hj'' : (update_job_progress s jid2 p t).find jid = some j' := hj'
    by_cases hsame : jid = jid2
    · subst hsame
      rw [find_update_job_progress] at hj''
      cases hf : s.find jid with
      | none => rw [hf] at hj''; cases hj''
      | some w =>
        rw [hf] at hj''
        cases hj''
        exact hP w hf
    · rw [find_update_job_progress_ne _ _ _ _ _ hsame] at hj''
      exact hP j' hj''

theorem statusTracked_applyOps : ∀ (ops : List Op) (s : Store) (jid : String)
    (st0 : JobStatus), st0.isTerminal = true →
    (s.map Prod.fst).Nodup → SeqOk s ops →
    (∀ op ∈ ops, ∀ ty now, op ≠ Op.create jid ty now) →
    (∀ j', s.find jid = some j' → j'.status = st0) →
    ∀ j', (applyOps s ops).find jid = some j' → j'.status = st0 := by
  intro ops
  induction ops with
  | nil =>
    intro s jid st0 _ _ _ _ hP
    exact hP
  | cons op rest ih =>
    intro s jid st0 hterm hnd hok hnc hP
    exact ih (applyOp s op) jid st0 hterm (nodupKeys_applyOp hnd hok.1) hok.2
      (fun o ho ty now => hnc o (List.mem_cons_of_mem _ ho) ty now)
      (statusTracked_applyOp hterm hnd hok.1 (hnc op (List.mem_cons_self _ _)) hP)

/-- Operation sequence that completes a job and then issues
`set_job_error` against it. -/
def clobberOps : List Op :=
  [.create "a" "legal_analysis" 0, .updateStatus "a" .processing 1,
   .setResult "a" 2 [0], .setError "a" 3 "boom"]

/-- C5 counterexample: the store does not guard status writes — after
`set_job_result` the job is Completed (terminal), yet a subsequent
`set_job_error` changes its status to Failed. -/
theorem C5_counterexample :
    (Store.find (applyOps [] (clobberOps.take 3)) "a").map Job.status =
      some JobStatus.completed ∧
    (Store.find (applyOps [] clobberOps) "a").map Job.status =
      some JobStatus.failed ∧
    JobStatus.completed ≠ JobStatus.failed := by
  refine ⟨by decide, by decide, by decide⟩

/-- C5 amended: for every sequence of store operations in which generated
ids are fresh at creation and no status-writing operation
(`update_job_status`, `set_job_result`, `set_job_error`) is issued against
a job already in a terminal state, once a job is Completed or Failed its
status never changes for as long as the record remains stored (the
read-path timeout override only fires on Processing jobs, so it never
touches a terminal record). -/
theorem C5_terminal_status_stable (s : Store) (ops : List Op) (jid : String) (j : Job)
    (hnd : (s.map Prod.fst).Nodup)
    (hok : SeqOk s ops)
    (hnc : ∀ op ∈ ops, ∀ ty now, op ≠ Op.create jid ty now)
    (hj : s.find jid = some j) (ht : j.status.isTerminal = true) :
    ∀ j', (applyOps s ops).find jid = some j' → j'.status = j.status := by
  refine statusTracked_applyOps ops s jid j.status ht hnd hok hnc ?_
  intro j' hj'
  rw [hj] at hj'
  cases hj'
  rfl

/-- Sample store: one Completed job and one Processing job. -/
def doneJob : Job :=
  { job_type := "legal_analysis", status := .completed, created_at := 0,
    started_at := none, completed_at := some 5, result := some [0],
    error := none, progress := 100, total_files := 1, processed_files := 1 }

theorem C5_terminal_status_stable_witness :
    ((([("d", doneJob), ("a", timedOutJob)] : Store).map Prod.fst).Nodup ∧
      SeqOk [("d", doneJob), ("a", timedOutJob)]
        [Op.updateProgress "d" 1 1, Op.get "d" 900] ∧
      Store.find [("d", doneJob), ("a", timedOutJob)] "d" = some doneJob ∧
      doneJob.status.isTerminal = true) ∧
    (∀ j', (applyOps [("d", doneJob), ("a", timedOutJob)]
        [Op.updateProgress "d" 1 1, Op.get "d" 900]).find "d" =
        some j' → j'.status = doneJob.status) := by
  have hnd : (([("d", doneJob), ("a", timedOutJob)] : Store).map Prod.fst).Nodup := by
    decide
  have hok : SeqOk [("d", doneJob), ("a", timedOutJob)]
      [Op.updateProgress "d" 1 1, Op.get "d" 900] := ⟨trivial, trivial, trivial⟩
  have hnc : ∀ op ∈ [Op.updateProgress "d" 1 1, Op.get "d" 900],
      ∀ ty now, op ≠ Op.create "d" ty now := by
    intro op hop ty now
    simp only [List.mem_cons, List.not_mem_nil, or_false] at hop
    rcases hop with rfl | rfl <;> simp
  exact ⟨⟨hnd, hok, rfl, rfl⟩,
    C5_terminal_status_stable [("d", doneJob), ("a", timedOutJob)]
      [Op.updateProgress "d" 1 1, Op.get "d" 900] "d" doneJob hnd hok hnc rfl rfl⟩

/-! ### Result/error exclusivity (C4) -/

/-- Result/error consistency of one record: nothing set before a terminal
state; exactly one of result/error set in a terminal state. -/
def resultErrorOk (j : Job) : Prop :=
  (j.status.isTerminal = false → j.result = none ∧ j.error = none) ∧
  (j.status = .completed → (∃ r, j.result = some r) ∧ j.error = none) ∧
  (j.status = .failed → j.result = none ∧ ∃ e, j.error = some e)

/-- Every stored record is result/error consistent. -/
def StoreResultErrorOk (s : Store) : Prop := ∀ p ∈ s, resultErrorOk p.2

theorem resultErrorOk_newJob (ty : String) (now : ℤ) : resultErrorOk (newJob ty now) := by
  refine ⟨fun _ => ⟨rfl, rfl⟩, fun h => ?_, fun h => ?_⟩ <;> cases h

/-- Setting `status := .failed` on an already-Failed consistent record keeps
it consistent. -/
theorem resultErrorOk_refail {v : Job} (hv : resultErrorOk v) (hst : v.status = .failed) :
    resultErrorOk { v with status := .failed } := by
  obtain ⟨-, -, h3⟩ := hv
  refine ⟨?_, ?_, ?_⟩
  · intro h
    cases h
  · intro h
    cases h
  · intro h2
    exact h3 hst

theorem storeREOk_modify {s : Store} {jid : String} {f : Job → Job}
    (hnd : (s.map Prod.fst).Nodup)
    (hs : StoreResultErrorOk s)
    (hf : ∀ w, s.find jid = some w → resultErrorOk (f w)) :
    StoreResultErrorOk (s.modify jid f) := by
  intro p hp
  unfold Store.modify at hp
  obtain ⟨q, hq, rfl⟩ := List.mem_map.mp hp
  by_cases h : q.1 = jid
  · simp only [h, if_true]
    refine hf q.2 ?_
    rw [← h]
    exact find_eq_of_mem_nodup hq hnd
  · simp only [h, if_false]
    exact hs q hq

theorem storeREOk_update_job_status {s : Store} {jid : String} {st : JobStatus}
    {now : ℤ} {r? : Option (List ℕ)} {e? : Option String}
    (hnd : (s.map Prod.fst).Nodup)
    (hs : StoreResultErrorOk s)
    (hf : ∀ w, s.find jid = some w → resultErrorOk (applyStatusUpdate st now r? e? w)) :
    StoreResultErrorOk (update_job_status s jid st now r? e?) := by
  unfold update_job_status
  by_cases h : (Store.find s jid).isSome
  · rw [if_pos h]
    exact storeREOk_modify hnd hs hf
  · rw [if_neg h]
    exact hs

/-- `set_job_result` on a consistent non-terminal record yields a consistent
Completed record. -/
theorem resultErrorOk_setResult {w : Job} (hw : resultErrorOk w)
    (hnt : w.status.isTerminal = false) (now : ℤ) (r : List ℕ) :
    resultErrorOk (applyStatusUpdate .completed now (some r) none w) := by
  obtain ⟨h1, -, -⟩ := hw
  obtain ⟨-, herr⟩ := h1 hnt
  refine ⟨fun h => ?_, fun _ => ?_, fun h => ?_⟩
  · rw [applyStatusUpdate_status] at h
    cases h
  · constructor
    · exact ⟨r, by rw [applyStatusUpdate_result]⟩
    · rw [applyStatusUpdate_error]
      exact herr
  · rw [applyStatusUpdate_status] at h
    cases h

/-- `set_job_error` on a consistent non-terminal record yields a consistent
Failed record. -/
theorem resultErrorOk_setError {w : Job} (hw : resultErrorOk w)
    (hnt : w.status.isTerminal = false) (now : ℤ) (e : String) :
    resultErrorOk (applyStatusUpdate .failed now none (some e) w) := by
  obtain ⟨h1, -, -⟩ := hw
  obtain ⟨hres, -⟩ := h1 hnt
  refine ⟨fun h => ?_, fun h => ?_, fun _ => ?_⟩
  · rw [applyStatusUpdate_status] at h
    cases h
  · rw [applyStatusUpdate_status] at h
    cases h
  · constructor
    · rw [applyStatusUpdate_result]
      exact hres
    · exact ⟨e, by rw [applyStatusUpdate_error]⟩

/-- A bare non-terminal status write on a consistent non-terminal record
keeps it consistent. -/
theorem resultErrorOk_bareStatus {w : Job} (hw : resultErrorOk w)
    (hnt : w.status.isTerminal = false) {st : JobStatus}
    (hg : st.isTerminal = false) (now : ℤ) :
    resultErrorOk (applyStatusUpdate st now none none w) := by
  obtain ⟨h1, -, -⟩ := hw
  obtain ⟨hres, herr⟩ := h1 hnt
  refine ⟨fun _ => ?_, fun h => ?_, fun h => ?_⟩
  · rw [applyStatusUpdate_result, applyStatusUpdate_error]
    exact ⟨hres, herr⟩
  · rw [applyStatusUpdate_status] at h
    rw [h] at hg
    cases hg
  · rw [applyStatusUpdate_status] at h
    rw [h] at hg
    cases hg

theorem storeREOk_applyOp {s : Store} {op : Op}
    (hnd : (s.map Prod.fst).Nodup) (hok : stepOk s op) (hg : stepGuarded op)
    (hs : StoreResultErrorOk s) : StoreResultErrorOk (applyOp s op) := by
  cases op with
  | create jid ty now =>
    show StoreResultErrorOk (create_job s jid ty now)
    unfold create_job
    dsimp only
    have hbase : StoreResultErrorOk (if max_jobs ≤ s.length then cleanup_old_jobs s else s) := by
      split_ifs
      · intro p hp
        exact hs p (List.mem_of_mem_filter hp)
      · exact hs
    revert hbase
    generalize (if max_jobs ≤ s.length then cleanup_old_jobs s else s : Store) = base
    intro hbase
    unfold Store.insert
    split_ifs
    · intro p hp
      obtain ⟨q, hq, rfl⟩ := List.mem_map.mp hp
      by_cases h : q.1 = jid
      · simp only [h, if_true]
        exact resultErrorOk_newJob ty now
      · simp only [h, if_false]
        exact hbase q hq
    · intro p hp
      rcases List.mem_append.mp hp with h | h
      · exact hbase p h
      · simp only [List.mem_singleton] at h
        rw [h]
        exact resultErrorOk_newJob ty now
  | get jid now =>
    show StoreResultErrorOk (get_job s jid now).2
    rcases get_job_snd s jid now with heq | ⟨j0, t0, hj0, hst0, -, -, heq⟩
    · rw [heq]
      exact hs
    · rw [heq]
      have hnt0 : j0.status.isTerminal = false := by rw [hst0]; rfl
      have hre0 : resultErrorOk j0 := hs _ (mem_of_find_some hj0)
      have hs1 : StoreResultErrorOk (set_job_error s jid now timeoutMessage) := by
        unfold set_job_error
        refine storeREOk_update_job_status hnd hs fun w hw => ?_
        rw [hj0] at hw
        cases hw
        exact resultErrorOk_setError hre0 hnt0 now timeoutMessage
      have hnd1 : ((set_job_error s jid now timeoutMessage).map Prod.fst).Nodup := by
        unfold set_job_error
        rw [keys_update_job_status]
        exact hnd
      refine storeREOk_modify hnd1 hs1 fun w hw => ?_
      unfold set_job_error at hw
      rw [find_update_job_status, hj0] at hw
      cases hw
      refine resultErrorOk_refail ?_ (applyStatusUpdate_status ..)
      exact resultErrorOk_setError hre0 hnt0 now timeoutMessage
  | updateStatus jid st now =>
    show StoreResultErrorOk (update_job_status s jid st now none none)
    refine storeREOk_update_job_status hnd hs fun w hw => ?_
    exact resultErrorOk_bareStatus (hs _ (mem_of_find_some hw)) (hok w hw) hg now
  | setResult jid now r =>
    show StoreResultErrorOk (update_job_status s jid .completed now (some r) none)
    refine storeREOk_update_job_status hnd hs fun w hw => ?_
    exact resultErrorOk_setResult (hs _ (mem_of_find_some hw)) (hok w hw) now r
  | setError jid now e =>
    show StoreResultErrorOk (update_job_status s jid .failed now none (some e))
    refine storeREOk_update_job_status hnd hs fun w hw => ?_
    exact resultErrorOk_setError (hs _ (mem_of_find_some hw)) (hok w hw) now e
  | updateProgress jid p t =>
    show StoreResultErrorOk (update_job_progress s jid p t)
    unfold update_job_progress
    by_cases h : (Store.find s jid).isSome
    · rw [if_pos h]
      refine storeREOk_modify hnd hs fun w hw => ?_
      exact hs _ (mem_of_find_some hw)
    · rw [if_neg h]
      exact hs

/-- C4 counterexample: the store does not guard result/error writes — the
job reached by creating, completing (`set_job_result`) and then failing
(`set_job_error`) a job holds BOTH a result and an error. -/
theorem C4_counterexample :
    (Store.find (applyOps [] clobberOps) "a").map (fun j => (j.result, j.error)) =
      some (some [0], some "boom") ∧
    (some [0] : Option (List ℕ)) ≠ none ∧ (some "boom" : Option String) ≠ none := by
  refine ⟨by decide, by decide, by decide⟩

/-- C4 amended: for every sequence of store operations in which generated
ids are fresh at creation, no status-writing operation is issued against a
job already in a terminal state, and terminal statuses are only written
through `set_job_result`/`set_job_error` (as the API layer does), every
reachable job has neither result nor error set while Pending or Processing,
and exactly one of them set once terminal — in particular never both. -/
theorem C4_result_error_exclusive (s : Store) (ops : List Op)
    (hnd : (s.map Prod.fst).Nodup) (hg : SeqGuarded s ops)
    (hs : StoreResultErrorOk s) : StoreResultErrorOk (applyOps s ops) := by
  induction ops generalizing s with
  | nil => exact hs
  | cons op rest ih =>
    exact ih (applyOp s op) (nodupKeys_applyOp hnd hg.1) hg.2.2
      (storeREOk_applyOp hnd hg.1 hg.2.1 hs)

theorem C4_result_error_exclusive_witness :
    ((([] : Store).map Prod.fst).Nodup ∧
      SeqGuarded [] [Op.create "a" "legal_analysis" 0, Op.updateStatus "a" .processing 1,
        Op.setResult "a" 2 [0]] ∧
      StoreResultErrorOk []) ∧
    StoreResultErrorOk (applyOps [] [Op.create "a" "legal_analysis" 0,
      Op.updateStatus "a" .processing 1, Op.setResult "a" 2 [0]]) := by
  have hnd : (([] : Store).map Prod.fst).Nodup := List.nodup_nil
  have hs0 : StoreResultErrorOk [] := by
    intro p hp
    simp at hp
  have hg : SeqGuarded [] [Op.create "a" "legal_analysis" 0,
      Op.updateStatus "a" .processing 1, Op.setResult "a" 2 [0]] := by
    refine ⟨rfl, trivial, ?_, rfl, ?_, trivial, trivial⟩
    · intro j hj
      have hc : Store.find (applyOp [] (Op.create "a" "legal_analysis" 0)) "a" =
          some (newJob "legal_analysis" 0) := by decide
      rw [hc] at hj
      cases hj
      rfl
    · intro j hj
      have hc : Store.find (applyOp (applyOp [] (Op.create "a" "legal_analysis" 0))
          (Op.updateStatus "a" .processing 1)) "a" =
          some (applyStatusUpdate .processing 1 none none (newJob "legal_analysis" 0)) := by
        decide
      rw [hc] at hj
      cases hj
      rfl
  exact ⟨⟨hnd, hg, hs0⟩, C4_result_error_exclusive [] [Op.create "a" "legal_analysis" 0,
    Op.updateStatus "a" .processing 1, Op.setResult "a" 2 [0]] hnd hg hs0⟩

/-! ### Capacity eviction (C3) -/

theorem sortedTerminal_perm (s : Store) : (sortedTerminal s).Perm (terminalEntries s) :=
  List.mergeSort_perm _ _

theorem sortedTerminal_pairwise (s : Store) :
    List.Pairwise (fun a b : String × Job => a.2.created_at ≤ b.2.created_at)
      (sortedTerminal s) := by
  unfold sortedTerminal
  have h := @List.sorted_mergeSort (String × Job)
    (fun a b => decide (a.2.created_at ≤ b.2.created_at))
    (fun a b c hab hbc => by
      simp only [decide_eq_true_eq] at hab hbc ⊢
      omega)
    (fun a b => by
      simp only [Bool.or_eq_true, decide_eq_true_eq]
      omega)
    (terminalEntries s)
  refine h.imp ?_
  intro a b hab
  simpa using hab

/-- C3: when `create_job` runs with the store at or above `max_jobs`, the
eviction pass removes exactly `⌊T/5⌋` records, where `T` is the number of
terminal (Completed/Failed) records; every removed record is terminal; each
removed record's `created_at` is no later than that of any surviving
terminal record; the new Pending record is then appended to the survivors;
and when `T = 0` nothing is removed, so the store grows past the cap. -/
theorem C3_eviction (s : Store) (jid ty : String) (now : ℤ)
    (hnd : (s.map Prod.fst).Nodup)
    (hcap : max_jobs ≤ s.length)
    (hfresh : s.find jid = none) :
    ((s.filter fun p => p.1 ∈ evictIds s).length = (terminalEntries s).length / 5) ∧
    (∀ p ∈ s, p.1 ∈ evictIds s → p.2.status.isTerminal = true) ∧
    (∀ p ∈ s, p.1 ∈ evictIds s → ∀ q ∈ s, q.2.status.isTerminal = true →
      q.1 ∉ evictIds s → p.2.created_at ≤ q.2.created_at) ∧
    (create_job s jid ty now = cleanup_old_jobs s ++ [(jid, newJob ty now)]) ∧
    ((terminalEntries s).length = 0 →
      cleanup_old_jobs s = s ∧ (create_job s jid ty now).length = s.length + 1) := by
  have hndl : s.Nodup := List.Nodup.of_map Prod.fst hnd
  have hndterm : (terminalEntries s).Nodup :=
    List.Nodup.sublist (List.filter_sublist s) hndl
  have hstp := sortedTerminal_perm s
  have hndt : (sortedTerminal s).Nodup := hstp.symm.nodup hndterm
  have hev : evictIds s =
      ((sortedTerminal s).take ((sortedTerminal s).length / 5)).map Prod.fst := rfl
  have htk_sub : ∀ q ∈ (sortedTerminal s).take ((sortedTerminal s).length / 5),
      q ∈ s ∧ q.2.status.isTerminal = true := by
    intro q hq
    have h1 : q ∈ sortedTerminal s := List.mem_of_mem_take hq
    have h2 : q ∈ terminalEntries s := hstp.subset h1
    exact ⟨List.mem_of_mem_filter h2, (List.mem_filter.mp h2).2⟩
  have hmem_tk : ∀ p ∈ s, p.1 ∈ evictIds s →
      p ∈ (sortedTerminal s).take ((sortedTerminal s).length / 5) := by
    intro p hp hid
    rw [hev] at hid
    obtain ⟨q, hq, hqeq⟩ := List.mem_map.mp hid
    have hqs : q ∈ s := (htk_sub q hq).1
    have hpq : p = q := List.inj_on_of_nodup_map hnd hp hqs hqeq.symm
    rw [hpq]
    exact hq
  have hcreate : create_job s jid ty now = cleanup_old_jobs s ++ [(jid, newJob ty now)] := by
    unfold create_job
    dsimp only
    rw [if_pos hcap]
    unfold Store.insert
    have hcf : Store.find (cleanup_old_jobs s) jid = none := find_filter_none _ hfresh
    rw [hcf]
    rfl
  refine ⟨?_, ?_, ?_, hcreate, ?_⟩
  · have hperm : (s.filter fun p => p.1 ∈ evictIds s).Perm
        ((sortedTerminal s).take ((sortedTerminal s).length / 5)) := by
      apply List.perm_of_nodup_nodup_toFinset_eq
      · exact List.Nodup.filter _ hndl
      · exact List.Nodup.sublist (List.take_sublist _ _) hndt
      · ext x
        simp only [List.mem_toFinset, List.mem_filter, decide_eq_true_eq]
        constructor
        · rintro ⟨hx, hid⟩
          exact hmem_tk x hx hid
        · intro hx
          refine ⟨(htk_sub x hx).1, ?_⟩
          rw [hev]
          exact List.mem_map_of_mem Prod.fst hx
    rw [hperm.length_eq, List.length_take, hstp.length_eq]
    omega
  · intro p hp hid
    exact (htk_sub p (hmem_tk p hp hid)).2
  · intro p hp hid q hq hqterm hqnot
    have hptk := hmem_tk p hp hid
    have hq2 : q ∈ terminalEntries s := List.mem_filter.mpr ⟨hq, hqterm⟩
    have hq3 : q ∈ sortedTerminal s := hstp.mem_iff.mpr hq2
    rw [← List.take_append_drop ((sortedTerminal s).length / 5) (sortedTerminal s)]
      at hq3
    rcases List.mem_append.mp hq3 with hq4 | hq4
    · exact absurd (hev ▸ List.mem_map_of_mem Prod.fst hq4) hqnot
    · have hpw := sortedTerminal_pairwise s
      rw [← List.take_append_drop ((sortedTerminal s).length / 5) (sortedTerminal s)]
        at hpw
      exact (List.pairwise_append.mp hpw).2.2 p hptk q hq4
  · intro hT0
    have hzero : (sortedTerminal s).length / 5 = 0 := by
      rw [hstp.length_eq, hT0]
    have hevnil : evictIds s = [] := by
      rw [hev, hzero, List.take_zero, List.map_nil]
    have hclean : cleanup_old_jobs s = s := by
      unfold cleanup_old_jobs
      apply List.filter_eq_self.mpr
      intro a _
      rw [hevnil]
      simp
    refine ⟨hclean, ?_⟩
    rw [hcreate, hclean, List.length_append, List.length_singleton]

/-- Store holding exactly `max_jobs` terminal records with ascending
creation times. -/
def fullStore : Store :=
  (List.range 100).map fun i => (toString i, { doneJob with created_at := (i : ℤ) })

theorem C3_eviction_witness :
    ((fullStore.map Prod.fst).Nodup ∧ max_jobs ≤ fullStore.length ∧
      fullStore.find "fresh" = none) ∧
    (((fullStore.filter fun p => p.1 ∈ evictIds fullStore).length =
        (terminalEntries fullStore).length / 5) ∧
      (∀ p ∈ fullStore, p.1 ∈ evictIds fullStore → p.2.status.isTerminal = true) ∧
      (∀ p ∈ fullStore, p.1 ∈ evictIds fullStore → ∀ q ∈ fullStore,
        q.2.status.isTerminal = true → q.1 ∉ evictIds fullStore →
          p.2.created_at ≤ q.2.created_at) ∧
      (create_job fullStore "fresh" "legal_analysis" 100 =
        cleanup_old_jobs fullStore ++ [("fresh", newJob "legal_analysis" 100)]) ∧
      ((terminalEntries fullStore).length = 0 →
        cleanup_old_jobs fullStore = fullStore ∧
        (create_job fullStore "fresh" "legal_analysis" 100).length =
          fullStore.length + 1)) := by
  have hnd : (fullStore.map Prod.fst).Nodup := by decide
  have hcap : max_jobs ≤ fullStore.length := by decide
  have hfresh : fullStore.find "fresh" = none := by decide
  exact ⟨⟨hnd, hcap, hfresh⟩,
    C3_eviction fullStore "fresh" "legal_analysis" 100 hnd hcap hfresh⟩

/-! ### Background driver (C6, C7) -/

/-- Indices (offset by `i`) of the units whose processing succeeds. -/
def okIdx : ℕ → List UnitOutcome → List ℕ
  | _, [] => []
  | i, .ok :: rest => i :: okIdx (i + 1) rest
  | i, .exn :: rest => okIdx (i + 1) rest
  | i, .short :: rest => okIdx (i + 1) rest

/-- The driver loop collects exactly the successful indices, emits one
progress event `(k + 1, n)` per successful unit `k` — and none for skipped
or failing units — and its store effect is the corresponding chain of
`update_job_progress` calls. -/
theorem driverLoop_spec (jid : String) (n : ℕ) :
    ∀ (units : List UnitOutcome) (i : ℕ) (acc : List ℕ) (s : Store),
      (driverLoop jid n i units acc s).1 = acc ++ okIdx i units ∧
      (driverLoop jid n i units acc s).2.2 =
        (okIdx i units).map (fun k => DriverEvent.progress (k + 1) n) ∧
      (driverLoop jid n i units acc s).2.1 =
        (okIdx i units).foldl (fun st k => update_job_progress st jid (k + 1) n) s := by
  intro units
  induction units with
  | nil =>
    intro i acc s
    exact ⟨by simp [driverLoop, okIdx], rfl, rfl⟩
  | cons u rest ih =>
    intro i acc s
    cases u with
    | ok =>
      obtain ⟨h1, h2, h3⟩ := ih (i + 1) (acc ++ [i]) (update_job_progress s jid (i + 1) n)
      refine ⟨?_, ?_, ?_⟩
      · show (driverLoop jid n (i + 1) rest (acc ++ [i])
            (update_job_progress s jid (i + 1) n)).1 = acc ++ okIdx i (.ok :: rest)
        rw [h1, okIdx]
        simp
      · show DriverEvent.progress (i + 1) n :: (driverLoop jid n (i + 1) rest (acc ++ [i])
            (update_job_progress s jid (i + 1) n)).2.2 =
          (okIdx i (.ok :: rest)).map fun k => DriverEvent.progress (k + 1) n
        rw [h2, okIdx]
        rfl
      · show (driverLoop jid n (i + 1) rest (acc ++ [i])
            (update_job_progress s jid (i + 1) n)).2.1 =
          (okIdx i (.ok :: rest)).foldl (fun st k => update_job_progress st jid (k + 1) n) s
        rw [h3, okIdx]
        rfl
    | exn => exact ih (i + 1) acc s
    | short => exact ih (i + 1) acc s

/-- Chained progress updates leave status, result and error untouched and
set `processed_files` to the last written value (`k + 1` for the last
element `k`, the original value when the chain is empty). -/
theorem find_foldl_progress (jid : String) (n : ℕ) :
    ∀ (ks : List ℕ) (s : Store) (j : Job), s.find jid = some j →
      ∃ j', (List.foldl (fun st k => update_job_progress st jid (k + 1) n) s ks).find jid
          = some j' ∧
        j'.status = j.status ∧ j'.result = j.result ∧ j'.error = j.error ∧
        j'.processed_files = ks.foldl (fun _ k => k + 1) j.processed_files := by
  intro ks
  induction ks with
  | nil =>
    intro s j h
    exact ⟨j, h, rfl, rfl, rfl, rfl⟩
  | cons k ks ih =>
    intro s j h
    have h1 : (update_job_progress s jid (k + 1) n).find jid =
        some { j with processed_files := k + 1, total_files := n,
                      progress := if 0 < n then pyPercent (k + 1) n else 0 } := by
      rw [find_update_job_progress, h]
      rfl
    obtain ⟨j', hj', hst, hres, herr, hpf⟩ := ih _ _ h1
    exact ⟨j', hj', hst, hres, herr, hpf⟩

theorem applyStatusUpdate_processed_files (st : JobStatus) (now : ℤ)
    (r? : Option (List ℕ)) (e? : Option String) (j : Job) :
    (applyStatusUpdate st now r? e? j).processed_files = j.processed_files := by
  cases st <;> cases r? <;> cases e? <;> rfl

/-- C6 counterexample: the progress tracker is NOT updated after failed
units.  Running the driver over three units of which the second and third
raise leaves `processed_files = 1` (only the successful first unit wrote
progress), whereas updating after every unit would leave 3. -/
theorem C6_counterexample :
    (process_legal_documents_background "j1" [.ok, .exn, .exn] none 10
        (create_job [] "j1" "legal_analysis" 0)).toOption.map
      (fun out => (out.1.find "j1").map Job.processed_files) = some (some 1) ∧
    (1 : ℕ) ≠ 3 := by
  refine ⟨by decide, by decide⟩

/-- C6 amended: a per-unit failure never aborts the run — with no systemic
failure the job always ends Completed, its result listing exactly the
successful unit indices; the progress tracker is updated only after each
successful unit, with `processed = index + 1, total = unit_count`
(skipped/failed units produce no update), so `processed_files` ends at
`last successful index + 1` (unchanged when no unit succeeds). -/
theorem filter_progress_of_map (n : ℕ) (ks : List ℕ) :
    (ks.map fun k => DriverEvent.progress (k + 1) n).filter
      (fun e => match e with | .progress _ _ => true | _ => false) =
    ks.map fun k => DriverEvent.progress (k + 1) n := by
  induction ks with
  | nil => rfl
  | cons k ks ih => simp [List.filter_cons, ih]

theorem C6_driver_skip_continue (jid : String) (units : List UnitOutcome) (now : ℤ)
    (s : Store) (j : Job) (h : s.find jid = some j) :
    ∃ out, process_legal_documents_background jid units none now s = Except.ok out ∧
      out.2.filter (fun e => match e with | .progress _ _ => true | _ => false) =
        (okIdx 0 units).map (fun k => DriverEvent.progress (k + 1) units.length) ∧
      ∃ j', out.1.find jid = some j' ∧
        j'.status = .completed ∧
        j'.result = some (okIdx 0 units) ∧
        j'.processed_files = (okIdx 0 units).foldl (fun _ k => k + 1) j.processed_files := by
  unfold process_legal_documents_background driverBody
  obtain ⟨hl1, hl2, hl3⟩ := driverLoop_spec jid units.length units 0 []
    (update_job_status s jid .processing now none none)
  have hj1 : (update_job_status s jid .processing now none none).find jid =
      some (applyStatusUpdate .processing now none none j) := by
    rw [find_update_job_status, h]
    rfl
  obtain ⟨j2, hj2, hst2, hres2, herr2, hpf2⟩ :=
    find_foldl_progress jid units.length (okIdx 0 units) _ _ hj1
  rw [← hl3] at hj2
  refine ⟨_, rfl, ?_, ?_⟩
  · dsimp only
    rw [hl2, List.filter_append, List.filter_append, filter_progress_of_map]
    simp
  · dsimp only
    rw [hl1, List.nil_append]
    unfold set_job_result
    rw [find_update_job_status, hj2]
    refine ⟨_, rfl, applyStatusUpdate_status .., ?_, ?_⟩
    · rw [applyStatusUpdate_result]
    · rw [applyStatusUpdate_processed_files, hpf2]
      have h5 : (applyStatusUpdate .processing now none none j).processed_files =
          j.processed_files := applyStatusUpdate_processed_files ..
      rw [h5]

theorem C6_driver_skip_continue_witness :
    Store.find (create_job [] "j1" "legal_analysis" 0) "j1" =
      some (newJob "legal_analysis" 0) ∧
    ∃ out, process_legal_documents_background "j1" [.ok, .exn, .ok] none 10
        (create_job [] "j1" "legal_analysis" 0) = Except.ok out ∧
      out.2.filter (fun e => match e with | .progress _ _ => true | _ => false) =
        (okIdx 0 [.ok, .exn, .ok]).map
          (fun k => DriverEvent.progress (k + 1) [UnitOutcome.ok, .exn, .ok].length) ∧
      ∃ j', out.1.find "j1" = some j' ∧
        j'.status = .completed ∧
        j'.result = some (okIdx 0 [.ok, .exn, .ok]) ∧
        j'.processed_files = (okIdx 0 [.ok, .exn, .ok]).foldl (fun _ k => k + 1)
          (newJob "legal_analysis" 0).processed_files := by
  have h : Store.find (create_job [] "j1" "legal_analysis" 0) "j1" =
      some (newJob "legal_analysis" 0) := by decide
  exact ⟨h, C6_driver_skip_continue "j1" [.ok, .exn, .ok] 10
    (create_job [] "j1" "legal_analysis" 0) (newJob "legal_analysis" 0) h⟩

/-- C7: on every exit path — normal completion, per-unit failures, or a
systemic exception (which the handler converts into a Failed job) — the
driver emits the temp-directory release exactly once, as its final action,
and the run always returns `.ok`: no failure escapes to the scheduler. -/
theorem C7_cleanup_exactly_once (jid : String) (units : List UnitOutcome)
    (sysFail : Option String) (now : ℤ) (s : Store) :
    ∃ out, process_legal_documents_background jid units sysFail now s = Except.ok out ∧
      out.2.count DriverEvent.cleanup = 1 ∧
      out.2.getLast? = some DriverEvent.cleanup := by
  unfold process_legal_documents_background driverBody
  obtain ⟨-, hl2, -⟩ := driverLoop_spec jid units.length units 0 []
    (update_job_status s jid .processing now none none)
  have hnocleanup : (driverLoop jid units.length 0 units []
      (update_job_status s jid .processing now none none)).2.2.count
        DriverEvent.cleanup = 0 := by
    rw [hl2]
    rw [List.count_eq_zero]
    intro hmem
    obtain ⟨k, -, hk⟩ := List.mem_map.mp hmem
    cases hk
  cases sysFail with
  | none =>
    refine ⟨_, rfl, ?_, ?_⟩
    · dsimp only
      rw [List.count_append, List.count_append, hnocleanup]
      rfl
    · dsimp only
      rw [List.getLast?_concat]
  | some msg =>
    refine ⟨_, rfl, ?_, ?_⟩
    · dsimp only
      rw [List.count_append, List.count_append, hnocleanup]
      rfl
    · dsimp only
      rw [List.getLast?_concat]

end LegalJobs
